import Mathlib

/-!
Verification of the text-patch engine in `otter_code/tools/code_editing.py`.

The pure text-transformation core of the module is embedded shallowly:

* Python `str` is modelled as `List Char`; file I/O, path resolution and the
  human-readable result messages are the caller's concern and are stripped,
  so each tool is modelled as a pure function from the file content (plus
  parameters) to the new content together with the count it reports.
  Functions that `raise` are modelled with `Except`/`Option`.
* `str.splitlines(keepends=True)` is modelled with `'\n'` as the line
  terminator (the exotic Unicode terminators Python also recognises play no
  role in any claim).
* The regex digits `\d` are modelled as ASCII digits.
* `diff_match_patch.match_main` and `diff_match_patch.diff_main` (followed by
  `diff_cleanupSemantic`) are a third-party library, not part of this
  repository; `findMatch` is therefore parameterised by two functions
  `mm`/`dm` standing for them, and theorems about the fuzzy path assume only
  their documented contracts.
* Python's negative indexing and slice clamping are modelled explicitly
  (`pyGet`, `pySliceTo`, `pySliceFrom`) with `Int` indices; `lines[i]` on an
  invalid index is the `none`/error case (Python `IndexError`).
-/

/-! ## Line splitting: `str.splitlines(keepends=True)` -/

/-- Accumulator-passing splitter: `acc` holds the (reversed) characters of the
current unfinished line. -/
def splitlinesAux (acc : List Char) : List Char → List (List Char)
  | [] => if acc = [] then [] else [acc.reverse]
  | c :: cs =>
    if c = '\n' then (acc.reverse ++ ['\n']) :: splitlinesAux [] cs
    else splitlinesAux (c :: acc) cs

/-- `s.splitlines(keepends=True)` with `'\n'` terminators. -/
def splitlines (s : List Char) : List (List Char) :=
  splitlinesAux [] s

/-! ## Python `str.count` / `str.replace` (exact, leftmost, non-overlapping) -/

/-- Fuelled leftmost non-overlapping occurrence counter (the fuel is a
standard device to keep the recursion structural, hence kernel-computable;
`pyCountGo` below instantiates it with sufficient fuel). -/
def pyCountFuel (s : List Char) : Nat → List Char → Nat
  | _, [] => 0
  | 0, _ :: _ => 0
  | fuel + 1, h :: t =>
    if s.isPrefixOf (h :: t) then 1 + pyCountFuel s fuel (t.drop (s.length - 1))
    else pyCountFuel s fuel t

/-- Leftmost non-overlapping occurrence count, `s ≠ []` case of `str.count`. -/
def pyCountGo (s c : List Char) : Nat :=
  pyCountFuel s c.length c

/-- `c.count(s)`: Python counts `len(c) + 1` matches of the empty string. -/
def pyCount (c s : List Char) : Nat :=
  if s = [] then c.length + 1 else pyCountGo s c

/-- Fuelled leftmost non-overlapping replace-all (fuel as in `pyCountFuel`). -/
def pyReplaceFuel (s r : List Char) : Nat → List Char → List Char
  | _, [] => []
  | 0, l => l
  | fuel + 1, h :: t =>
    if s.isPrefixOf (h :: t) then r ++ pyReplaceFuel s r fuel (t.drop (s.length - 1))
    else h :: pyReplaceFuel s r fuel t

/-- Leftmost non-overlapping replace-all, `s ≠ []` case of `str.replace`. -/
def pyReplaceGo (s r c : List Char) : List Char :=
  pyReplaceFuel s r c.length c

/-- `c.replace(s, r)`: replacing the empty string interleaves `r` everywhere. -/
def pyReplace (c s r : List Char) : List Char :=
  if s = [] then r ++ c.flatMap (fun ch => ch :: r)
  else pyReplaceGo s r c

/-- `text.find(pattern)`: index of the first occurrence, `none` for Python `-1`. -/
def strFind : List Char → List Char → Option Nat
  | [], p => if p.isPrefixOf [] then some 0 else none
  | c :: ts, p =>
    if p.isPrefixOf (c :: ts) then some 0 else (strFind ts p).map (· + 1)

/-- `pattern` occurs verbatim in `text` at character offset `i`. -/
def occursAt (text pat : List Char) (i : Nat) : Bool :=
  pat.isPrefixOf (text.drop i)

/-- `if not content.endswith('\n'): content += '\n'`. -/
def ensureNL (content : List Char) : List Char :=
  if content.getLast? = some '\n' then content else content ++ ['\n']

/-! ## `search_replace_all` (file I/O stripped; lines 204–213 of the source).
The reported occurrence count is returned; `raise ValueError("Text not
found ...")` is the `Except.error` case. -/

def searchReplaceAll (content search repl : List Char) :
    Except (List Char) (List Char × Nat) :=
  let count := pyCount content search
  if count = 0 then Except.error ("Text not found".toList)
  else Except.ok (pyReplace content search repl, count)

/-- Equality of `Except` results is decidable (needed to evaluate the embedded
operations on concrete inputs). -/
instance {ε α : Type} [DecidableEq ε] [DecidableEq α] : DecidableEq (Except ε α) := fun a b =>
  match a, b with
  | Except.error x, Except.error y =>
    if h : x = y then isTrue (congrArg Except.error h)
    else isFalse fun hc => h (Except.error.inj hc)
  | Except.error _, Except.ok _ => isFalse fun hc => Except.noConfusion hc
  | Except.ok _, Except.error _ => isFalse fun hc => Except.noConfusion hc
  | Except.ok x, Except.ok y =>
    if h : x = y then isTrue (congrArg Except.ok h)
    else isFalse fun hc => h (Except.ok.inj hc)

/-! ## `FuzzyMatcher.find_match`
`mm` stands for `self.dmp.match_main` (`none` models the `-1` result) and
`dm` for `self.dmp.diff_main` followed by `diff_cleanupSemantic`; both live in
the external `diff_match_patch` library. -/

/-- diff-match-patch diff operations (`0`, `1`, `-1` in the library). -/
inductive DOp where
  | equal : DOp
  | insert : DOp
  | delete : DOp
deriving DecidableEq

/-- Total length of the `equal` and `insert` portions of a character diff:
the part of the second diffed sequence the diff covers. -/
def sumEI : List (DOp × List Char) → Nat
  | [] => 0
  | (DOp.equal, d) :: rest => d.length + sumEI rest
  | (DOp.insert, d) :: rest => d.length + sumEI rest
  | (DOp.delete, _) :: rest => sumEI rest

/-- The `match_end` loop of `find_match`: walk the diffs, stopping as soon as
`pattern_consumed >= len(pattern)`. -/
def computeEnd (patLen : Nat) : List (DOp × List Char) → Nat → Nat → Nat
  | [], matchEnd, _ => matchEnd
  | (DOp.equal, data) :: rest, matchEnd, consumed =>
    if patLen ≤ consumed then matchEnd
    else computeEnd patLen rest (matchEnd + data.length) (consumed + data.length)
  | (DOp.insert, data) :: rest, matchEnd, consumed =>
    if patLen ≤ consumed then matchEnd
    else computeEnd patLen rest (matchEnd + data.length) consumed
  | (DOp.delete, data) :: rest, matchEnd, consumed =>
    if patLen ≤ consumed then matchEnd
    else computeEnd patLen rest matchEnd (consumed + data.length)

/-- `FuzzyMatcher.find_match(text, pattern, expected_location)`. -/
def findMatch (mm : List Char → List Char → Nat → Option Nat)
    (dm : List Char → List Char → List (DOp × List Char))
    (text pattern : List Char) (expectedLoc : Nat) : Option (Nat × Nat) :=
  if pattern = [] then none
  else
    match strFind text pattern with
    | some exactPos => some (exactPos, exactPos + pattern.length)
    | none =>
      match mm text pattern expectedLoc with
      | none => none
      | some matchStart =>
        some (matchStart,
          computeEnd pattern.length
            (dm pattern ((text.drop matchStart).take (pattern.length * 2)))
            matchStart 0)

/-! ## Python negative-index and slice semantics -/

/-- `l[i]` for a Python list: negative indices count from the end; a still
out-of-range index is `none` (Python raises `IndexError`). -/
def pyGet {α : Type} (l : List α) (i : Int) : Option α :=
  if i < 0 then
    (if i + l.length < 0 then none else l.get? (i + l.length).toNat)
  else l.get? i.toNat

/-- `l[:i]` for a Python list (clamping slice). -/
def pySliceTo {α : Type} (l : List α) (i : Int) : List α :=
  l.take (if i < 0 then (i + l.length).toNat else i.toNat)

/-- `l[i:]` for a Python list (clamping slice). -/
def pySliceFrom {α : Type} (l : List α) (i : Int) : List α :=
  l.drop (if i < 0 then (i + l.length).toNat else i.toNat)

/-! ## `_parse_unified_diff` -/

/-- Hunk-body operations. -/
inductive HOp where
  | context : HOp
  | delete : HOp
  | add : HOp
deriving DecidableEq

/-- A parsed hunk (the dict built by `_parse_unified_diff`). -/
structure Hunk where
  old_start : Nat
  old_count : Nat
  new_start : Nat
  new_count : Nat
  lines : List (HOp × List Char)
deriving DecidableEq

/-- Strip a literal from the front of a line, or fail. -/
def dropLit (lit l : List Char) : Option (List Char) :=
  if lit.isPrefixOf l then some (l.drop lit.length) else none

/-- Greedily read at least one ASCII digit (`\d+`). -/
def takeDigits (l : List Char) : Option (Nat × List Char) :=
  let ds := l.takeWhile Char.isDigit
  if ds = [] then none
  else some (ds.foldl (fun n c => n * 10 + (c.toNat - 48)) 0, l.drop ds.length)

/-- The optional `(?:,(\d+))?` group: a comma not followed by digits leaves
the input untouched (the group matches empty). -/
def parseOptCount (l : List Char) : Option Nat × List Char :=
  match l with
  | ',' :: rest =>
    match takeDigits rest with
    | some (n, rest2) => (some n, rest2)
    | none => (none, l)
  | _ => (none, l)

/-- Anchored match of `@@ -(\d+)(?:,(\d+))? \+(\d+)(?:,(\d+))? @@` against the
start of a line; omitted counts default to 1. -/
def parseHunkHeader (line : List Char) : Option (Nat × Nat × Nat × Nat) :=
  match dropLit ("@@ -".toList) line with
  | none => none
  | some r1 =>
    match takeDigits r1 with
    | none => none
    | some (os, r2) =>
      let (oc, r3) := parseOptCount r2
      match dropLit (" +".toList) r3 with
      | none => none
      | some r4 =>
        match takeDigits r4 with
        | none => none
        | some (ns, r5) =>
          let (nc, r6) := parseOptCount r5
          match dropLit (" @@".toList) r6 with
          | none => none
          | some _ => some (os, oc.getD 1, ns, nc.getD 1)

/-- Classify one hunk-body line; unrecognised lines are skipped. -/
def classifyLine (line : List Char) (h : Hunk) : Hunk :=
  if ("-".toList).isPrefixOf line then
    { h with lines := h.lines ++ [(HOp.delete, line.drop 1)] }
  else if ("+".toList).isPrefixOf line then
    { h with lines := h.lines ++ [(HOp.add, line.drop 1)] }
  else if (" ".toList).isPrefixOf line then
    { h with lines := h.lines ++ [(HOp.context, line.drop 1)] }
  else if line = "\n".toList then
    { h with lines := h.lines ++ [(HOp.context, line)] }
  else h

/-- One diff line is a skipped file/metadata header. -/
def isSkipLine (line : List Char) : Bool :=
  ("---".toList).isPrefixOf line || ("+++".toList).isPrefixOf line ||
    ("diff ".toList).isPrefixOf line || ("index ".toList).isPrefixOf line

/-- The parse loop of `_parse_unified_diff`. -/
def parseUnifiedDiffAux : List (List Char) → Option Hunk → List Hunk → List Hunk
  | [], none, acc => acc
  | [], some h, acc => acc ++ [h]
  | line :: rest, cur, acc =>
    match parseHunkHeader line with
    | some (os, oc, ns, nc) =>
      let acc2 := match cur with | none => acc | some h => acc ++ [h]
      parseUnifiedDiffAux rest (some ⟨os, oc, ns, nc, []⟩) acc2
    | none =>
      if isSkipLine line then parseUnifiedDiffAux rest cur acc
      else
        match cur with
        | none => parseUnifiedDiffAux rest none acc
        | some h => parseUnifiedDiffAux rest (some (classifyLine line h)) acc

/-- `_parse_unified_diff(diff)`. -/
def parseUnifiedDiff (diff : List Char) : List Hunk :=
  parseUnifiedDiffAux (splitlines diff) none []

/-! ## `_apply_hunk` -/

/-- The op-walking loop of `_apply_hunk`, with the Python `int` cursor
`line_idx`. `none` models the `IndexError` that `lines[line_idx]` raises when
`line_idx = -1` on an empty list. -/
def applyHunkGo (lines : List (List Char)) :
    List (HOp × List Char) → List (List Char) → Int → Option (List (List Char) × Int)
  | [], res, idx => some (res, idx)
  | (HOp.context, content) :: rest, res, idx =>
    if idx < (lines.length : Int) then
      match pyGet lines idx with
      | some l => applyHunkGo lines rest (res ++ [l]) (idx + 1)
      | none => none
    else applyHunkGo lines rest (res ++ [content]) idx
  | (HOp.delete, _) :: rest, res, idx => applyHunkGo lines rest res (idx + 1)
  | (HOp.add, content) :: rest, res, idx =>
    applyHunkGo lines rest (res ++ [ensureNL content]) idx

/-- `_apply_hunk(lines, hunk)`. The function body raises no `ValueError`; its
only possible exception is the `IndexError` modelled by `none`. -/
def applyHunk (lines : List (List Char)) (h : Hunk) : Option (List (List Char)) :=
  match applyHunkGo lines h.lines (pySliceTo lines ((h.old_start : Int) - 1))
      ((h.old_start : Int) - 1) with
  | none => none
  | some (res, idx) => some (res ++ pySliceFrom lines idx)

/-! ## `apply_diff` (file I/O stripped; lines 238–261 of the source) -/

inductive DiffErr where
  /-- `raise ValueError("No valid hunks found in diff")`. -/
  | noValidHunks : DiffErr
  /-- An uncaught `IndexError` escaping `_apply_hunk` (the `except ValueError`
  branch of `apply_diff` cannot fire, since `_apply_hunk` raises no
  `ValueError`). -/
  | hunkIndex : DiffErr
deriving DecidableEq

/-- `for hunk in reversed(hunks): new_lines = _apply_hunk(new_lines, hunk)`,
counting applied hunks. The argument list is already reversed. -/
def applyHunksRev : List Hunk → List (List Char) → Nat → Except DiffErr (List (List Char) × Nat)
  | [], lines, n => Except.ok (lines, n)
  | h :: rest, lines, n =>
    match applyHunk lines h with
    | some newLines => applyHunksRev rest newLines (n + 1)
    | none => Except.error DiffErr.hunkIndex

/-- `apply_diff(content, diff)`: parse, reject an empty hunk list, apply in
reverse parse order, and return the joined content with the applied count. -/
def applyDiff (content diff : List Char) : Except DiffErr (List Char × Nat) :=
  if parseUnifiedDiff diff = [] then Except.error DiffErr.noValidHunks
  else
    match applyHunksRev (parseUnifiedDiff diff).reverse (splitlines content) 0 with
    | Except.ok (newLines, n) => Except.ok (newLines.flatten, n)
    | Except.error e => Except.error e

/-! ## `insert_at_line` and `delete_lines` (file I/O stripped) -/

/-- `if lines and not lines[-1].endswith('\n'): lines[-1] += '\n'`. -/
def fixLastNL (lines : List (List Char)) : List (List Char) :=
  match lines.getLast? with
  | none => lines
  | some last =>
    if last.getLast? = some '\n' then lines else lines.dropLast ++ [last ++ ['\n']]

/-- `if content and not content.endswith('\n'): content += '\n'` applied to
the text being inserted. -/
def normalizeText (text : List Char) : List Char :=
  if text ≠ [] ∧ text.getLast? ≠ some '\n' then text ++ ['\n'] else text

/-- The line-splicing step of `insert_at_line` (`lines` is the file's line
sequence, `contentLines` the lines of the normalized inserted text). -/
def insertNewLines (lines contentLines : List (List Char)) (lineNumber : Int) :
    List (List Char) :=
  if lineNumber ≤ 0 then contentLines ++ lines
  else if (lines.length : Int) < lineNumber then fixLastNL lines ++ contentLines
  else lines.take (lineNumber.toNat - 1) ++ contentLines ++ lines.drop (lineNumber.toNat - 1)

/-- `insert_at_line(content, line_number, text)`: the new content and the
reported inserted-line count. -/
def insertAtLine (content : List Char) (lineNumber : Int) (text : List Char) :
    List Char × Nat :=
  ((insertNewLines (splitlines content) (splitlines (normalizeText text)) lineNumber).flatten,
    (splitlines (normalizeText text)).length)

/-- `delete_lines(content, start_line, end_line)`: returns the new content and
the reported deleted-line count; `Except.error` models the `ValueError`s. -/
def deleteLines (content : List Char) (startLine endLine : Int) :
    Except (List Char) (List Char × Int) :=
  if startLine < 1 ∨ endLine < startLine then Except.error ("Invalid line range".toList)
  else if ((splitlines content).length : Int) < startLine then
    Except.error ("Start line is beyond end of file".toList)
  else
    Except.ok
      (((splitlines content).take (startLine.toNat - 1) ++
          (splitlines content).drop (min endLine ((splitlines content).length : Int)).toNat).flatten,
        min endLine ((splitlines content).length : Int) - startLine + 1)

/-- 1-indexed first line of the block that `insert_at_line` inserts (the spec's
notion of "the same range of lines that were inserted"). -/
def insertStartLine (content : List Char) (lineNumber : Int) : Int :=
  if lineNumber ≤ 0 then 1
  else if ((splitlines content).length : Int) < lineNumber then
    ((splitlines content).length : Int) + 1
  else lineNumber

/-! ## Spec-side definitions (clearly marked; built from the spec's words, for
comparison with the source-derived definitions above) -/

/-- Modelled from the spec: insert a hunk into a list kept in descending
`old_start` order. -/
def insertByOldStartDesc (h : Hunk) : List Hunk → List Hunk
  | [] => [h]
  | h2 :: t =>
    if h2.old_start ≤ h.old_start then h :: h2 :: t
    else h2 :: insertByOldStartDesc h t

/-- Modelled from the spec: sort hunks by descending `old_start`. -/
def sortByOldStartDesc : List Hunk → List Hunk
  | [] => []
  | h :: t => insertByOldStartDesc h (sortByOldStartDesc t)

/-- Modelled from the spec (claim C1's reading of `applyUnifiedDiff`): apply
the parsed hunks in descending order of `old_start`. -/
def applyDiffDescending (content diff : List Char) : Except DiffErr (List Char × Nat) :=
  if parseUnifiedDiff diff = [] then Except.error DiffErr.noValidHunks
  else
    match applyHunksRev (sortByOldStartDesc (parseUnifiedDiff diff)) (splitlines content) 0 with
    | Except.ok (newLines, n) => Except.ok (newLines.flatten, n)
    | Except.error e => Except.error e

/-- Modelled from the spec (claim C3's description of the op walk): a context
op copies the file's actual current line and advances the cursor, a delete op
advances the cursor without emitting, an add op emits its text (terminated)
without advancing; `none` where the description does not apply (no current
line to copy). Returns the emitted block and the final cursor. -/
def specWalk (lines : List (List Char)) :
    List (HOp × List Char) → Nat → Option (List (List Char) × Nat)
  | [], cursor => some ([], cursor)
  | (HOp.context, _) :: rest, cursor =>
    match lines.get? cursor with
    | some l =>
      match specWalk lines rest (cursor + 1) with
      | some (out, c) => some (l :: out, c)
      | none => none
    | none => none
  | (HOp.delete, _) :: rest, cursor => specWalk lines rest (cursor + 1)
  | (HOp.add, txt) :: rest, cursor =>
    match specWalk lines rest cursor with
    | some (out, c) => some (ensureNL txt :: out, c)
    | none => none

/-- Modelled from the spec (claim C3): copy `lines[0 .. old_start-2]`, walk the
ops per `specWalk`, then copy the remaining lines from the final cursor. -/
def applyHunkSpec (lines : List (List Char)) (h : Hunk) : Option (List (List Char)) :=
  if h.old_start = 0 then none
  else
    match specWalk lines h.lines (h.old_start - 1) with
    | some (out, c) => some (lines.take (h.old_start - 1) ++ out ++ lines.drop c)
    | none => none

/-- Number of ops that read (and consume) a line of the file: context and
delete ops. -/
def countReads : List (HOp × List Char) → Nat
  | [] => 0
  | (HOp.context, _) :: rest => 1 + countReads rest
  | (HOp.delete, _) :: rest => 1 + countReads rest
  | (HOp.add, _) :: rest => countReads rest

/-! ## Structure of `splitlines` output -/

/-- A line has no interior newline (`'\n'` may appear only as its last char). -/
def noInnerNL (l : List Char) : Prop := ∀ c ∈ l.dropLast, c ≠ '\n'

/-- The shape `splitlines` guarantees: every line nonempty with no interior
newline, and every line except possibly the last ends with `'\n'`. -/
def LinesShape : List (List Char) → Prop
  | [] => True
  | l :: rest =>
    l ≠ [] ∧ noInnerNL l ∧ (rest = [] ∨ l.getLast? = some '\n') ∧ LinesShape rest

/-- Every line nonempty, without interior newline, and `'\n'`-terminated. -/
def NLLines (L : List (List Char)) : Prop :=
  ∀ l ∈ L, l ≠ [] ∧ noInnerNL l ∧ l.getLast? = some '\n'

theorem LinesShape_nil : LinesShape [] := trivial

theorem LinesShape_cons (l : List Char) (rest : List (List Char)) :
    LinesShape (l :: rest) ↔
      l ≠ [] ∧ noInnerNL l ∧ (rest = [] ∨ l.getLast? = some '\n') ∧ LinesShape rest :=
  Iff.rfl

theorem splitlinesAux_flatten (s : List Char) :
    ∀ acc, (splitlinesAux acc s).flatten = acc.reverse ++ s := by
  induction s with
  | nil => intro acc; by_cases h : acc = [] <;> simp [splitlinesAux, h]
  | cons c cs ih =>
    intro acc
    by_cases h : c = '\n'
    · subst h; simp [splitlinesAux, ih]
    · simp [splitlinesAux, h, ih]

theorem splitlines_flatten (s : List Char) : (splitlines s).flatten = s := by
  simpa using splitlinesAux_flatten s []

theorem splitlinesAux_shape (s : List Char) :
    ∀ acc, (∀ c ∈ acc, c ≠ '\n') → LinesShape (splitlinesAux acc s) := by
  induction s with
  | nil =>
    intro acc hacc
    by_cases h : acc = []
    · simp [splitlinesAux, h, LinesShape_nil]
    · rw [splitlinesAux]
      simp only [h, if_false]
      rw [LinesShape_cons]
      refine ⟨by simpa using h, ?_, Or.inl rfl, LinesShape_nil⟩
      intro c hc
      exact hacc c (by
        have := List.Sublist.mem hc (List.dropLast_sublist acc.reverse)
        simpa using this)
  | cons c cs ih =>
    intro acc hacc
    by_cases h : c = '\n'
    · subst h
      rw [splitlinesAux, if_pos rfl]
      rw [LinesShape_cons]
      refine ⟨by simp, ?_, Or.inr (by simp), ih [] (by simp)⟩
      intro x hx
      rw [List.dropLast_concat] at hx
      exact hacc x (by simpa using hx)
    · rw [splitlinesAux]
      simp only [h, if_false]
      exact ih (c :: acc) (by
        intro x hx
        rcases List.mem_cons.mp hx with rfl | hx
        · exact h
        · exact hacc x hx)

theorem splitlines_shape (s : List Char) : LinesShape (splitlines s) :=
  splitlinesAux_shape s [] (by simp)

theorem LinesShape_append (A C : List (List Char)) (hA : NLLines A) (hC : LinesShape C) :
    LinesShape (A ++ C) := by
  induction A with
  | nil => simpa using hC
  | cons l A ih =>
    have hl := hA l (by simp)
    rw [List.cons_append, LinesShape_cons]
    exact ⟨hl.1, hl.2.1, Or.inr hl.2.2, ih (fun x hx => hA x (by simp [hx]))⟩

theorem NLLines_of_append_left (X Y : List (List Char)) (h : LinesShape (X ++ Y))
    (hY : Y ≠ []) : NLLines X := by
  induction X with
  | nil => intro l hl; simp at hl
  | cons l X ih =>
    rw [List.cons_append, LinesShape_cons] at h
    have hend : l.getLast? = some '\n' := by
      rcases h.2.2.1 with h1 | h1
      · exact absurd (List.append_eq_nil.mp h1).2 hY
      · exact h1
    intro m hm
    rcases List.mem_cons.mp hm with rfl | hm
    · exact ⟨h.1, h.2.1, hend⟩
    · exact ih h.2.2.2 m hm

theorem LinesShape_append_right (X Y : List (List Char)) (h : LinesShape (X ++ Y)) :
    LinesShape Y := by
  induction X with
  | nil => simpa using h
  | cons l X ih =>
    rw [List.cons_append, LinesShape_cons] at h
    exact ih h.2.2.2

theorem NLLines_of_shape_endNL (L : List (List Char)) (hL : LinesShape L)
    (he : L.flatten.getLast? = some '\n') : NLLines L := by
  induction L with
  | nil => intro l hl; simp at hl
  | cons l rest ih =>
    rw [LinesShape_cons] at hL
    cases rest with
    | nil =>
      intro m hm
      rcases List.mem_cons.mp hm with rfl | hm
      · exact ⟨hL.1, hL.2.1, by simpa using he⟩
      · simp at hm
    | cons r rest2 =>
      have hr : r ≠ [] := by
        have h2 := hL.2.2.2
        rw [LinesShape_cons] at h2
        exact h2.1
      have hflat : (r :: rest2).flatten ≠ [] := by
        intro hcon
        rw [List.flatten_cons] at hcon
        exact hr (List.append_eq_nil.mp hcon).1
      have he2 : ((r :: rest2).flatten).getLast? = some '\n' := by
        rw [List.flatten_cons] at he
        rwa [List.getLast?_append_of_ne_nil l hflat] at he
      have hend : l.getLast? = some '\n' := by
        rcases hL.2.2.1 with h1 | h1
        · exact absurd h1 (by simp)
        · exact h1
      intro m hm
      rcases List.mem_cons.mp hm with rfl | hm
      · exact ⟨hL.1, hL.2.1, hend⟩
      · exact ih hL.2.2.2 he2 m hm

theorem splitlinesAux_nlLine (l2 : List Char) (hnl : '\n' ∉ l2) :
    ∀ (rest acc : List Char),
      splitlinesAux acc (l2 ++ '\n' :: rest) =
        (acc.reverse ++ l2 ++ ['\n']) :: splitlinesAux [] rest := by
  induction l2 with
  | nil => intro rest acc; simp [splitlinesAux]
  | cons c cs ih =>
    intro rest acc
    have hc : c ≠ '\n' := fun h => hnl (by simp [h])
    have hcs : '\n' ∉ cs := fun h => hnl (by simp [h])
    rw [List.cons_append, splitlinesAux, if_neg hc, ih hcs rest (c :: acc)]
    simp

theorem splitlinesAux_no_nl (l : List Char) (hnl : '\n' ∉ l) :
    ∀ acc, splitlinesAux acc l =
      if acc.reverse ++ l = [] then [] else [acc.reverse ++ l] := by
  induction l with
  | nil => intro acc; by_cases h : acc = [] <;> simp [splitlinesAux, h]
  | cons c cs ih =>
    intro acc
    have hc : c ≠ '\n' := fun h => hnl (by simp [h])
    have hcs : '\n' ∉ cs := fun h => hnl (by simp [h])
    rw [splitlinesAux, if_neg hc, ih hcs (c :: acc)]
    simp

theorem nlLine_decomp (l : List Char) (hne : l ≠ []) (hend : l.getLast? = some '\n') :
    l.dropLast ++ ['\n'] = l := by
  have h1 := List.dropLast_append_getLast hne
  have h2 : l.getLast hne = '\n' := by
    rw [List.getLast?_eq_getLast l hne] at hend
    exact Option.some.inj hend
  rw [h2] at h1
  exact h1

theorem splitlines_cons_of_nlLine (l : List Char) (hne : l ≠ []) (hinner : noInnerNL l)
    (hend : l.getLast? = some '\n') (rest : List Char) :
    splitlines (l ++ rest) = l :: splitlines rest := by
  have hdecomp := nlLine_decomp l hne hend
  have hnl : '\n' ∉ l.dropLast := fun h => hinner '\n' h rfl
  have step := splitlinesAux_nlLine l.dropLast hnl rest []
  calc splitlines (l ++ rest) = splitlinesAux [] (l.dropLast ++ '\n' :: rest) := by
        rw [splitlines, ← hdecomp]
        simp
  _ = (List.reverse [] ++ l.dropLast ++ ['\n']) :: splitlinesAux [] rest := step
  _ = l :: splitlines rest := by
        rw [splitlines]
        simp [hdecomp]

theorem no_nl_of_lineShape (l : List Char) (hne : l ≠ []) (hinner : noInnerNL l)
    (hend : l.getLast? ≠ some '\n') : '\n' ∉ l := by
  have hd := List.dropLast_append_getLast hne
  intro hmem
  rw [← hd] at hmem
  rcases List.mem_append.mp hmem with h1 | h1
  · exact hinner '\n' h1 rfl
  · have h2 : l.getLast hne = '\n' := by
      have := List.mem_singleton.mp h1
      exact this.symm
    exact hend (by rw [List.getLast?_eq_getLast l hne, h2])

theorem splitlines_single (l : List Char) (hne : l ≠ []) (hinner : noInnerNL l) :
    splitlines l = [l] := by
  by_cases hend : l.getLast? = some '\n'
  · simpa using splitlines_cons_of_nlLine l hne hinner hend []
  · have hnl := no_nl_of_lineShape l hne hinner hend
    rw [splitlines, splitlinesAux_no_nl l hnl []]
    simp [hne]

theorem splitlines_flatten_shape (L : List (List Char)) (hL : LinesShape L) :
    splitlines L.flatten = L := by
  induction L with
  | nil => rfl
  | cons l rest ih =>
    rw [LinesShape_cons] at hL
    rcases hL with ⟨hne, hinner, hlast, hrest⟩
    rcases hlast with rfl | hend
    · rw [List.flatten_cons]
      simp only [List.flatten_nil, List.append_nil]
      exact splitlines_single l hne hinner
    · rw [List.flatten_cons, splitlines_cons_of_nlLine l hne hinner hend, ih hrest]

/-! ## Replace-all lemmas -/

theorem pyCountFuel_nil (s : List Char) (fuel : Nat) : pyCountFuel s fuel [] = 0 := by
  cases fuel <;> rfl

theorem pyReplaceFuel_nil (s r : List Char) (fuel : Nat) : pyReplaceFuel s r fuel [] = [] := by
  cases fuel <;> rfl

theorem pyCountFuel_irrel (s : List Char) :
    ∀ f1 f2 c, c.length ≤ f1 → c.length ≤ f2 → pyCountFuel s f1 c = pyCountFuel s f2 c := by
  intro f1
  induction f1 with
  | zero =>
    intro f2 c h1 _
    have : c = [] := List.length_eq_zero.mp (Nat.le_zero.mp h1)
    subst this
    rw [pyCountFuel_nil, pyCountFuel_nil]
  | succ f1 ih =>
    intro f2 c h1 h2
    cases c with
    | nil => rw [pyCountFuel_nil, pyCountFuel_nil]
    | cons x t =>
      cases f2 with
      | zero => simp at h2
      | succ f2 =>
        show (if s.isPrefixOf (x :: t) then 1 + pyCountFuel s f1 (t.drop (s.length - 1))
            else pyCountFuel s f1 t) =
          (if s.isPrefixOf (x :: t) then 1 + pyCountFuel s f2 (t.drop (s.length - 1))
            else pyCountFuel s f2 t)
        simp only [List.length_cons] at h1 h2
        by_cases hp : s.isPrefixOf (x :: t)
        · rw [if_pos hp, if_pos hp,
            ih f2 (t.drop (s.length - 1)) (by simp only [List.length_drop]; omega)
              (by simp only [List.length_drop]; omega)]
        · rw [if_neg hp, if_neg hp, ih f2 t (by omega) (by omega)]

theorem pyReplaceFuel_irrel (s r : List Char) :
    ∀ f1 f2 c, c.length ≤ f1 → c.length ≤ f2 →
      pyReplaceFuel s r f1 c = pyReplaceFuel s r f2 c := by
  intro f1
  induction f1 with
  | zero =>
    intro f2 c h1 _
    have : c = [] := List.length_eq_zero.mp (Nat.le_zero.mp h1)
    subst this
    rw [pyReplaceFuel_nil, pyReplaceFuel_nil]
  | succ f1 ih =>
    intro f2 c h1 h2
    cases c with
    | nil => rw [pyReplaceFuel_nil, pyReplaceFuel_nil]
    | cons x t =>
      cases f2 with
      | zero => simp at h2
      | succ f2 =>
        show (if s.isPrefixOf (x :: t) then r ++ pyReplaceFuel s r f1 (t.drop (s.length - 1))
            else x :: pyReplaceFuel s r f1 t) =
          (if s.isPrefixOf (x :: t) then r ++ pyReplaceFuel s r f2 (t.drop (s.length - 1))
            else x :: pyReplaceFuel s r f2 t)
        simp only [List.length_cons] at h1 h2
        by_cases hp : s.isPrefixOf (x :: t)
        · rw [if_pos hp, if_pos hp,
            ih f2 (t.drop (s.length - 1)) (by simp only [List.length_drop]; omega)
              (by simp only [List.length_drop]; omega)]
        · rw [if_neg hp, if_neg hp, ih f2 t (by omega) (by omega)]

theorem pyReplaceGo_nil (s r : List Char) : pyReplaceGo s r [] = [] := rfl

theorem pyReplaceGo_cons (s r : List Char) (h : Char) (t : List Char) :
    pyReplaceGo s r (h :: t) =
      if s.isPrefixOf (h :: t) then r ++ pyReplaceGo s r (t.drop (s.length - 1))
      else h :: pyReplaceGo s r t := by
  show (if s.isPrefixOf (h :: t) then r ++ pyReplaceFuel s r t.length (t.drop (s.length - 1))
      else h :: pyReplaceFuel s r t.length t) = _
  by_cases hp : s.isPrefixOf (h :: t)
  · rw [if_pos hp, if_pos hp, pyReplaceGo,
      pyReplaceFuel_irrel s r t.length ((t.drop (s.length - 1)).length) (t.drop (s.length - 1))
        (by simp only [List.length_drop]; omega) le_rfl]
  · rw [if_neg hp, if_neg hp, pyReplaceGo]

theorem pyCountGo_nil (s : List Char) : pyCountGo s [] = 0 := rfl

theorem pyCountGo_cons (s : List Char) (h : Char) (t : List Char) :
    pyCountGo s (h :: t) =
      if s.isPrefixOf (h :: t) then 1 + pyCountGo s (t.drop (s.length - 1))
      else pyCountGo s t := by
  show (if s.isPrefixOf (h :: t) then 1 + pyCountFuel s t.length (t.drop (s.length - 1))
      else pyCountFuel s t.length t) = _
  by_cases hp : s.isPrefixOf (h :: t)
  · rw [if_pos hp, if_pos hp, pyCountGo,
      pyCountFuel_irrel s t.length ((t.drop (s.length - 1)).length) (t.drop (s.length - 1))
        (by simp only [List.length_drop]; omega) le_rfl]
  · rw [if_neg hp, if_neg hp, pyCountGo]

theorem pyReplaceGo_id_of_count_zero (s r c : List Char) (h : pyCountGo s c = 0) :
    pyReplaceGo s r c = c := by
  induction c with
  | nil => exact pyReplaceGo_nil s r
  | cons x t ih =>
    rw [pyCountGo_cons] at h
    by_cases hp : s.isPrefixOf (x :: t)
    · rw [if_pos hp] at h
      omega
    · rw [if_neg hp] at h
      rw [pyReplaceGo_cons, if_neg hp, ih h]

theorem pyReplace_id_of_count_zero (c s r : List Char) (h : pyCount c s = 0) :
    pyReplace c s r = c := by
  rw [pyCount] at h
  by_cases hs : s = []
  · rw [if_pos hs] at h
    omega
  · rw [if_neg hs] at h
    rw [pyReplace, if_neg hs]
    exact pyReplaceGo_id_of_count_zero s r c h

/-- Round trip of leftmost replace-all: replacing `s` by `r` and then `r` by
`s` restores the input, provided `s` and `r` are nonempty and no character of
`r` occurs in the input (so no stray or boundary-straddling occurrence of `r`
can exist in the intermediate string). -/
theorem pyReplaceGo_roundTrip (s r : List Char) (hs : s ≠ []) (hr : r ≠ []) :
    ∀ (n : Nat) (c : List Char), c.length ≤ n → (∀ ch ∈ r, ch ∉ c) →
      pyReplaceGo r s (pyReplaceGo s r c) = c := by
  intro n
  induction n with
  | zero =>
    intro c hlen _
    have : c = [] := List.length_eq_zero.mp (Nat.le_zero.mp hlen)
    subst this
    rw [pyReplaceGo_nil, pyReplaceGo_nil]
  | succ n ih =>
    intro c hlen hdisj
    cases c with
    | nil => rw [pyReplaceGo_nil, pyReplaceGo_nil]
    | cons x t =>
      by_cases hp : s.isPrefixOf (x :: t)
      · rw [pyReplaceGo_cons, if_pos hp]
        obtain ⟨u, hu⟩ := List.isPrefixOf_iff_prefix.mp hp
        have hdropu : (x :: t).drop s.length = u := by
          rw [← hu, List.drop_left]
        have hdrop : t.drop (s.length - 1) = u := by
          obtain ⟨c0, s2, rfl⟩ : ∃ c0 s2, s = c0 :: s2 := by
            cases s with
            | nil => exact absurd rfl hs
            | cons c0 s2 => exact ⟨c0, s2, rfl⟩
          simpa using hdropu
        rw [hdrop]
        obtain ⟨r0, r2, rfl⟩ : ∃ r0 r2, r = r0 :: r2 := by
          cases r with
          | nil => exact absurd rfl hr
          | cons r0 r2 => exact ⟨r0, r2, rfl⟩
        rw [List.cons_append, pyReplaceGo_cons,
          if_pos (List.isPrefixOf_iff_prefix.mpr ⟨pyReplaceGo s (r0 :: r2) u, by simp⟩)]
        have hlen2 : u.length ≤ n := by
          have h1 : (x :: t).length = s.length + u.length := by
            rw [← hu, List.length_append]
          have h2 : 1 ≤ s.length := by
            cases s with
            | nil => exact absurd rfl hs
            | cons _ _ => simp
          simp only [List.length_cons] at h1 hlen
          omega
        have hdisj2 : ∀ ch ∈ (r0 :: r2), ch ∉ u := by
          intro ch hch hmem
          exact hdisj ch hch (by rw [← hu]; exact List.mem_append.mpr (Or.inr hmem))
        have hdropr : (r2 ++ pyReplaceGo s (r0 :: r2) u).drop ((r0 :: r2).length - 1) =
            pyReplaceGo s (r0 :: r2) u := by
          simp [List.drop_left r2 (pyReplaceGo s (r0 :: r2) u)]
        rw [hdropr, ih u hlen2 hdisj2, ← hu]
      · rw [pyReplaceGo_cons, if_neg hp, pyReplaceGo_cons]
        have hx : x ∈ (x :: t) := by simp
        have hnp : ¬ r.isPrefixOf (x :: pyReplaceGo s r t) := by
          obtain ⟨r0, r2, rfl⟩ : ∃ r0 r2, r = r0 :: r2 := by
            cases r with
            | nil => exact absurd rfl hr
            | cons r0 r2 => exact ⟨r0, r2, rfl⟩
          intro hcon
          have := (List.cons_prefix_cons.mp (List.isPrefixOf_iff_prefix.mp hcon)).1
          exact hdisj r0 (by simp) (this ▸ hx)
        rw [if_neg hnp]
        have hlen2 : t.length ≤ n := by
          simp only [List.length_cons] at hlen
          omega
        rw [ih t hlen2 (fun ch hch hmem => hdisj ch hch (by simp [hmem]))]

/-! ## Claims C5 and C6: exact replace-all -/

/-- C5 counterexample: with zero occurrences of the search text
(`"x"` in `"abc"`), `search_replace_all` raises `ValueError("Text not
found ...")` instead of returning the content unchanged with count 0. -/
theorem C5_counterexample :
    pyCount ("abc".toList) ("x".toList) = 0 ∧
      searchReplaceAll ("abc".toList) ("x".toList) ("y".toList) =
        Except.error ("Text not found".toList) := by
  decide

/-- C5 (amended): when the search text has zero occurrences,
`search_replace_all` fails with the `ValueError("Text not found ...")` —
the zero-occurrence case is not handed to the caller as a successful no-op —
while the underlying pure replace (`content.replace`) would indeed leave the
content unchanged. -/
theorem C5_zero_occurrences_raises (c s r : List Char) (h : pyCount c s = 0) :
    searchReplaceAll c s r = Except.error ("Text not found".toList) ∧
      pyReplace c s r = c := by
  refine ⟨?_, pyReplace_id_of_count_zero c s r h⟩
  rw [searchReplaceAll]
  simp [h]

/-- Witness for C5 at a concrete input. -/
theorem C5_zero_occurrences_raises_witness :
    searchReplaceAll ("abc".toList) ("x".toList) ("y".toList) =
        Except.error ("Text not found".toList) ∧
      pyReplace ("abc".toList) ("x".toList) ("y".toList) = ("abc".toList) :=
  C5_zero_occurrences_raises ("abc".toList) ("x".toList) ("y".toList) (by decide)

/-- C6 counterexample: `s = "a"` does not occur inside `r = "b"`, yet
`replaceAllExact(replaceAllExact("b a", "a", "b"), "b", "a") = "a a" ≠ "b a"`:
the pre-existing occurrence of `r` in the content is also rewritten on the
way back. -/
theorem C6_counterexample :
    ¬ (("a".toList) <:+: ("b".toList)) ∧
      pyReplace (pyReplace ("b a".toList) ("a".toList) ("b".toList))
          ("b".toList) ("a".toList) = ("a a".toList) ∧
      ("a a".toList) ≠ ("b a".toList) := by
  decide

/-- C6 (amended): the round trip
`replaceAllExact(replaceAllExact(c, s, r), r, s) = c` holds for nonempty `s`
and `r` provided no character of `r` occurs in `c` (which rules out both
pre-existing occurrences of `r` in `c` and occurrences straddling a
replacement boundary; nonemptiness rules out the degenerate empty-string
semantics of Python `str.replace`). -/
theorem C6_replaceAll_roundTrip (c s r : List Char) (hs : s ≠ []) (hr : r ≠ [])
    (hdisj : ∀ ch ∈ r, ch ∉ c) :
    pyReplace (pyReplace c s r) r s = c := by
  rw [pyReplace, if_neg hr, pyReplace, if_neg hs]
  exact pyReplaceGo_roundTrip s r hs hr c.length c le_rfl hdisj

/-- Witness for C6 at a concrete input. -/
theorem C6_replaceAll_roundTrip_witness :
    pyReplace (pyReplace ("x a".toList) ("a".toList) ("b".toList))
        ("b".toList) ("a".toList) = ("x a".toList) :=
  C6_replaceAll_roundTrip ("x a".toList) ("a".toList) ("b".toList)
    (by decide) (by decide) (by decide)

/-! ## Matcher lemmas and claims C4, C9 -/

theorem strFind_bound (p : List Char) :
    ∀ t i, strFind t p = some i → i + p.length ≤ t.length := by
  intro t
  induction t with
  | nil =>
    intro i h
    rw [strFind] at h
    by_cases hp : p.isPrefixOf []
    · rw [if_pos hp] at h
      have hpe : p = [] := List.prefix_nil.mp (List.isPrefixOf_iff_prefix.mp hp)
      cases h
      simp [hpe]
    · rw [if_neg hp] at h
      cases h
  | cons c ts ih =>
    intro i h
    rw [strFind] at h
    by_cases hp : p.isPrefixOf (c :: ts)
    · rw [if_pos hp] at h
      cases h
      simpa using List.IsPrefix.length_le (List.isPrefixOf_iff_prefix.mp hp)
    · rw [if_neg hp] at h
      cases hf : strFind ts p with
      | none => rw [hf] at h; cases h
      | some j =>
        rw [hf] at h
        have hij : i = j + 1 := (Option.some.inj h).symm
        have := ih j hf
        simp only [List.length_cons]
        omega

theorem strFind_first (p : List Char) :
    ∀ i t, occursAt t p i = true → (∀ j, j < i → occursAt t p j = false) →
      strFind t p = some i := by
  intro i
  induction i with
  | zero =>
    intro t hocc _
    rw [occursAt, List.drop_zero] at hocc
    cases t with
    | nil => rw [strFind, if_pos hocc]
    | cons c ts => rw [strFind, if_pos hocc]
  | succ i ih =>
    intro t hocc hmin
    cases t with
    | nil =>
      exfalso
      have h0 := hmin 0 (Nat.succ_pos i)
      rw [occursAt] at hocc h0
      simp only [List.drop_nil] at hocc h0
      rw [h0] at hocc
      cases hocc
    | cons c ts =>
      have h0 := hmin 0 (Nat.succ_pos i)
      rw [occursAt, List.drop_zero] at h0
      have hnp : ¬ p.isPrefixOf (c :: ts) = true := by
        rw [h0]
        exact Bool.false_ne_true
      rw [strFind, if_neg hnp]
      have hocc2 : occursAt ts p i = true := by
        rw [occursAt] at hocc ⊢
        rwa [List.drop_succ_cons] at hocc
      have hmin2 : ∀ j, j < i → occursAt ts p j = false := by
        intro j hj
        have := hmin (j + 1) (by omega)
        rw [occursAt, List.drop_succ_cons] at this
        rwa [occursAt]
      rw [ih ts hocc2 hmin2]
      rfl

theorem computeEnd_ge (patLen : Nat) :
    ∀ (diffs : List (DOp × List Char)) (me pc : Nat), me ≤ computeEnd patLen diffs me pc := by
  intro diffs
  induction diffs with
  | nil =>
    intro me pc
    rw [computeEnd]
  | cons d rest ih =>
    intro me pc
    obtain ⟨op, data⟩ := d
    cases op with
    | equal =>
      rw [computeEnd]
      by_cases hc : patLen ≤ pc
      · rw [if_pos hc]
      · rw [if_neg hc]
        exact le_trans (Nat.le_add_right me data.length) (ih _ _)
    | insert =>
      rw [computeEnd]
      by_cases hc : patLen ≤ pc
      · rw [if_pos hc]
      · rw [if_neg hc]
        exact le_trans (Nat.le_add_right me data.length) (ih _ _)
    | delete =>
      rw [computeEnd]
      by_cases hc : patLen ≤ pc
      · rw [if_pos hc]
      · rw [if_neg hc]
        exact ih _ _

theorem computeEnd_le (patLen : Nat) :
    ∀ (diffs : List (DOp × List Char)) (me pc : Nat),
      computeEnd patLen diffs me pc ≤ me + sumEI diffs := by
  intro diffs
  induction diffs with
  | nil =>
    intro me pc
    rw [computeEnd, sumEI]
    omega
  | cons d rest ih =>
    intro me pc
    obtain ⟨op, data⟩ := d
    cases op with
    | equal =>
      rw [computeEnd, sumEI]
      by_cases hc : patLen ≤ pc
      · rw [if_pos hc]
        omega
      · rw [if_neg hc]
        have := ih (me + data.length) (pc + data.length)
        omega
    | insert =>
      rw [computeEnd, sumEI]
      by_cases hc : patLen ≤ pc
      · rw [if_pos hc]
        omega
      · rw [if_neg hc]
        have := ih (me + data.length) pc
        omega
    | delete =>
      rw [computeEnd, sumEI]
      by_cases hc : patLen ≤ pc
      · rw [if_pos hc]
        omega
      · rw [if_neg hc]
        have := ih me (pc + data.length)
        omega

/-- C4 counterexample: the empty pattern occurs verbatim in every document
(Python `"abc".find("") == 0`), yet `find_match` returns `None` for it (the
`if not pattern` guard), not the span `(0, 0)` of the first occurrence. -/
theorem C4_counterexample :
    occursAt ("abc".toList) [] 0 = true ∧
      findMatch (fun _ _ _ => none) (fun _ _ => []) ("abc".toList) [] 0 = none := by
  decide

/-- C4 (amended): for every NON-EMPTY pattern that occurs verbatim in the
document, `find_match` returns exactly the span
`(i, i + len(pattern))` of the first verbatim occurrence `i` — independently
of the fuzzy machinery (`mm`, `dm` arbitrary, hence regardless of the
configured threshold/distance) and of the expected-location hint. -/
theorem C4_exact_match_precedence
    (mm : List Char → List Char → Nat → Option Nat)
    (dm : List Char → List Char → List (DOp × List Char))
    (text pattern : List Char) (expectedLoc i : Nat)
    (hp : pattern ≠ [])
    (hocc : occursAt text pattern i = true)
    (hmin : ∀ j, j < i → occursAt text pattern j = false) :
    findMatch mm dm text pattern expectedLoc = some (i, i + pattern.length) := by
  rw [findMatch, if_neg hp, strFind_first pattern i text hocc hmin]

/-- Witness for C4 at a concrete input. -/
theorem C4_exact_match_precedence_witness :
    findMatch (fun _ _ _ => none) (fun _ _ => []) ("ab".toList) ("b".toList) 0 =
      some (1, 1 + ("b".toList).length) :=
  C4_exact_match_precedence (fun _ _ _ => none) (fun _ _ => [])
    ("ab".toList) ("b".toList) 0 1 (by decide) (by decide) (by decide)

/-- C9: whenever `find_match` returns a span `(s, e)` — by the exact path or
by the fuzzy path with its diff-based end alignment — then
`0 ≤ s ≤ e ≤ len(document)`, assuming only the library contracts that
`match_main` returns `-1` or a location within the document and that the
`equal`/`insert` portions of a character diff cover no more than the second
diffed sequence. -/
theorem C9_findMatch_span_invariant
    (mm : List Char → List Char → Nat → Option Nat)
    (dm : List Char → List Char → List (DOp × List Char))
    (hmm : ∀ t p e ms, mm t p e = some ms → ms ≤ t.length)
    (hdm : ∀ a b, sumEI (dm a b) ≤ b.length)
    (text pattern : List Char) (expectedLoc s e : Nat)
    (h : findMatch mm dm text pattern expectedLoc = some (s, e)) :
    s ≤ e ∧ e ≤ text.length := by
  rw [findMatch] at h
  by_cases hp : pattern = []
  · rw [if_pos hp] at h
    cases h
  · rw [if_neg hp] at h
    cases hf : strFind text pattern with
    | some exactPos =>
      rw [hf] at h
      have hse := Option.some.inj h
      have hs : s = exactPos := (congrArg Prod.fst hse).symm
      have he : e = exactPos + pattern.length := (congrArg Prod.snd hse).symm
      subst hs
      subst he
      exact ⟨Nat.le_add_right s pattern.length, strFind_bound pattern text s hf⟩
    | none =>
      rw [hf] at h
      cases hm : mm text pattern expectedLoc with
      | none =>
        rw [hm] at h
        cases h
      | some ms =>
        rw [hm] at h
        have hse := Option.some.inj h
        have hs : s = ms := (congrArg Prod.fst hse).symm
        have he : e = computeEnd pattern.length
            (dm pattern ((text.drop ms).take (pattern.length * 2))) ms 0 :=
          (congrArg Prod.snd hse).symm
        subst hs
        have h1 : s ≤ text.length := hmm text pattern expectedLoc s hm
        have h2 := computeEnd_ge pattern.length
          (dm pattern ((text.drop s).take (pattern.length * 2))) s 0
        have h3 := computeEnd_le pattern.length
          (dm pattern ((text.drop s).take (pattern.length * 2))) s 0
        have h4 := hdm pattern ((text.drop s).take (pattern.length * 2))
        have h5 : ((text.drop s).take (pattern.length * 2)).length ≤ text.length - s := by
          simp only [List.length_take, List.length_drop]
          omega
        subst he
        constructor
        · exact h2
        · omega

/-- Witness for C9 at a concrete input. -/
theorem C9_findMatch_span_invariant_witness :
    (1 : Nat) ≤ 2 ∧ 2 ≤ ("ab".toList).length :=
  C9_findMatch_span_invariant (fun _ _ _ => none) (fun _ _ => [])
    (fun _ _ _ _ hcon => Option.noConfusion hcon) (fun _ _ => Nat.zero_le _)
    ("ab".toList) ("b".toList) 0 1 2 (by decide)

/-! ## Claim C8: empty hunk sequence is a hard input error -/

/-- C8: `_parse_unified_diff("not a diff")` yields an empty hunk sequence
(no exception), and `apply_diff` on any input whose diff parses to zero hunks
fails with the MalformedInput error
(`ValueError("No valid hunks found in diff")`) instead of returning content. -/
theorem C8_empty_hunks_malformed :
    parseUnifiedDiff ("not a diff".toList) = [] ∧
      ∀ content diff : List Char, parseUnifiedDiff diff = [] →
        applyDiff content diff = Except.error DiffErr.noValidHunks := by
  refine ⟨by decide, ?_⟩
  intro content diff h
  rw [applyDiff, if_pos h]

/-- Witness for C8 at a concrete input. -/
theorem C8_empty_hunks_malformed_witness :
    applyDiff ("x".toList) ("not a diff".toList) = Except.error DiffErr.noValidHunks :=
  C8_empty_hunks_malformed.2 ("x".toList) ("not a diff".toList) (by decide)

/-! ## Totality lemmas for `_apply_hunk` -/

theorem pyGet_ofNat {α : Type} (l : List α) (i : Nat) : pyGet l (i : Int) = l.get? i := by
  rw [pyGet]
  have h0 : ¬ ((i : Int) < 0) := by omega
  rw [if_neg h0, Int.toNat_natCast]

theorem pySliceTo_ofNat {α : Type} (l : List α) (i : Nat) : pySliceTo l (i : Int) = l.take i := by
  rw [pySliceTo]
  have h0 : ¬ ((i : Int) < 0) := by omega
  rw [if_neg h0, Int.toNat_natCast]

theorem pySliceFrom_ofNat {α : Type} (l : List α) (i : Nat) :
    pySliceFrom l (i : Int) = l.drop i := by
  rw [pySliceFrom]
  have h0 : ¬ ((i : Int) < 0) := by omega
  rw [if_neg h0, Int.toNat_natCast]

theorem pyGet_some {α : Type} (l : List α) (idx : Int) (h0 : 0 ≤ idx)
    (h1 : idx < (l.length : Int)) : ∃ x, pyGet l idx = some x := by
  have hn : idx.toNat < l.length := by omega
  refine ⟨l.get ⟨idx.toNat, hn⟩, ?_⟩
  rw [pyGet, if_neg (by omega : ¬ idx < 0)]
  exact List.get?_eq_get hn

theorem applyHunkGo_total (lines : List (List Char)) :
    ∀ (ops : List (HOp × List Char)) (res : List (List Char)) (idx : Int), 0 ≤ idx →
      ∃ out idx2, applyHunkGo lines ops res idx = some (out, idx2) ∧ 0 ≤ idx2 := by
  intro ops
  induction ops with
  | nil =>
    intro res idx h
    exact ⟨res, idx, by rw [applyHunkGo], h⟩
  | cons d rest ih =>
    obtain ⟨op, content⟩ := d
    cases op with
    | context =>
      intro res idx h
      rw [applyHunkGo]
      by_cases hlt : idx < (lines.length : Int)
      · rw [if_pos hlt]
        obtain ⟨x, hx⟩ := pyGet_some lines idx h hlt
        rw [hx]
        exact ih _ _ (by omega)
      · rw [if_neg hlt]
        exact ih _ _ h
    | delete =>
      intro res idx h
      rw [applyHunkGo]
      exact ih _ _ (by omega)
    | add =>
      intro res idx h
      rw [applyHunkGo]
      exact ih _ _ h

theorem applyHunk_total_of_pos (lines : List (List Char)) (h : Hunk)
    (hpos : 1 ≤ h.old_start) : ∃ out, applyHunk lines h = some out := by
  obtain ⟨out, idx2, heq, _⟩ := applyHunkGo_total lines h.lines
    (pySliceTo lines ((h.old_start : Int) - 1)) ((h.old_start : Int) - 1) (by omega)
  rw [applyHunk, heq]
  exact ⟨out ++ pySliceFrom lines idx2, rfl⟩

theorem applyHunksRev_ok (hs : List Hunk) :
    ∀ (lines : List (List Char)) (n : Nat), (∀ h ∈ hs, 1 ≤ h.old_start) →
      ∃ out, applyHunksRev hs lines n = Except.ok (out, n + hs.length) := by
  induction hs with
  | nil =>
    intro lines n _
    refine ⟨lines, ?_⟩
    rw [applyHunksRev]
    simp
  | cons h rest ih =>
    intro lines n hall
    obtain ⟨out1, h1⟩ := applyHunk_total_of_pos lines h (hall h (by simp))
    obtain ⟨out, h2⟩ := ih out1 (n + 1) (fun x hx => hall x (by simp [hx]))
    refine ⟨out, ?_⟩
    rw [applyHunksRev, h1]
    show applyHunksRev rest out1 (n + 1) = Except.ok (out, n + (h :: rest).length)
    rw [h2]
    have harith : n + 1 + rest.length = n + (h :: rest).length := by
      simp only [List.length_cons]
      omega
    rw [harith]

/-! ## Claims C10 and C2: totality / structural failures of hunk application -/

/-- C10 counterexample: the parser accepts the header `@@ -0 +1 @@`
(`old_start = 0` is a parsed hunk), and applying its hunk — whose first op is
a context op — to an empty line sequence evaluates Python `lines[-1]` on an
empty list: `_apply_hunk` raises an (uncaught) `IndexError` rather than
returning, so it is not total and `apply_diff` on the empty file errors
instead of counting the hunk. -/
theorem C10_counterexample :
    parseUnifiedDiff ("@@ -0 +1 @@\n x\n".toList) =
        [⟨0, 1, 1, 1, [(HOp.context, "x\n".toList)]⟩] ∧
      applyHunk [] ⟨0, 1, 1, 1, [(HOp.context, "x\n".toList)]⟩ = none ∧
      applyDiff [] ("@@ -0 +1 @@\n x\n".toList) = Except.error DiffErr.hunkIndex := by
  decide

/-- C10 (amended): `_apply_hunk` returns without raising for every line
sequence and every hunk with `old_start ≥ 1` (out-of-range coordinates are
absorbed by slice clamping and the recorded-text context fallback), and
`apply_diff` on any diff whose parsed hunks all have `old_start ≥ 1` applies
them all, reporting a count equal to the number of parsed hunks — and since
`_apply_hunk` raises no `ValueError` at all, `apply_diff`'s per-hunk
`except ValueError` branch is unreachable. The only exception, forced by the
counterexample, is a parsed hunk with `old_start = 0` whose first
line-consuming op is a context op, applied to an empty file: there
`_apply_hunk` raises `IndexError`. -/
theorem C10_applyHunk_total :
    (∀ (lines : List (List Char)) (h : Hunk), 1 ≤ h.old_start →
        ∃ out, applyHunk lines h = some out) ∧
      (∀ content diff : List Char,
        parseUnifiedDiff diff ≠ [] →
        (∀ h ∈ parseUnifiedDiff diff, 1 ≤ h.old_start) →
        ∃ out, applyDiff content diff =
          Except.ok (out, (parseUnifiedDiff diff).length)) := by
  constructor
  · intro lines h hpos
    exact applyHunk_total_of_pos lines h hpos
  · intro content diff hne hall
    obtain ⟨out, hout⟩ := applyHunksRev_ok (parseUnifiedDiff diff).reverse
      (splitlines content) 0 (fun h hh => hall h (List.mem_reverse.mp hh))
    refine ⟨out.flatten, ?_⟩
    rw [applyDiff, if_neg hne, hout]
    rw [List.length_reverse, Nat.zero_add]

/-- Witness for C10 at a concrete input. -/
theorem C10_applyHunk_total_witness :
    (∃ out, applyHunk [("a\n".toList)]
        ⟨1, 1, 1, 1, [(HOp.delete, "a\n".toList)]⟩ = some out) ∧
      (∃ out, applyDiff ("a\n".toList) ("@@ -1 +1 @@\n-a\n".toList) =
        Except.ok (out, (parseUnifiedDiff ("@@ -1 +1 @@\n-a\n".toList)).length)) :=
  ⟨C10_applyHunk_total.1 [("a\n".toList)] ⟨1, 1, 1, 1, [(HOp.delete, "a\n".toList)]⟩
      (by decide),
    C10_applyHunk_total.2 ("a\n".toList) ("@@ -1 +1 @@\n-a\n".toList)
      (by decide) (by decide)⟩

/-- C2 counterexample: the hunk `@@ -5 +5 @@ / +X` has `old_start = 5`, far
beyond the 1-line file `"a\n"`, yet `apply_diff` succeeds — it silently clamps
the out-of-range coordinate and appends the line, returning new content with
the hunk counted, instead of reporting a StructuralApplyFailure. -/
theorem C2_counterexample :
    parseUnifiedDiff ("@@ -5 +5 @@\n+X\n".toList) =
        [⟨5, 1, 5, 1, [(HOp.add, "X\n".toList)]⟩] ∧
      (splitlines ("a\n".toList)).length = 1 ∧
      applyDiff ("a\n".toList) ("@@ -5 +5 @@\n+X\n".toList) =
        Except.ok ("a\nX\n".toList, 1) := by
  decide

/-- C2 (amended): a hunk whose recorded `old_start` lies beyond the current
line sequence is NOT rejected: `_apply_hunk` still returns a result (the
leading slice clamps and context ops past the end fall back to the hunk's
recorded text), so no StructuralApplyFailure is ever reported for it and the
edit is applied permissively rather than refused. -/
theorem C2_out_of_range_not_rejected (lines : List (List Char)) (h : Hunk)
    (hgt : lines.length < h.old_start) :
    ∃ out, applyHunk lines h = some out :=
  applyHunk_total_of_pos lines h (by omega)

/-- Witness for C2 at a concrete input. -/
theorem C2_out_of_range_not_rejected_witness :
    ∃ out, applyHunk [("a\n".toList)] ⟨5, 1, 5, 1, [(HOp.add, "X\n".toList)]⟩ = some out :=
  C2_out_of_range_not_rejected [("a\n".toList)] ⟨5, 1, 5, 1, [(HOp.add, "X\n".toList)]⟩
    (by decide)

/-! ## Claim C3: the per-op semantics of `_apply_hunk` -/

theorem applyHunkGo_agrees_specWalk (lines : List (List Char)) :
    ∀ (ops : List (HOp × List Char)) (cursor : Nat) (res : List (List Char)),
      cursor + countReads ops ≤ lines.length →
      ∃ out endc, specWalk lines ops cursor = some (out, endc) ∧
        applyHunkGo lines ops res (cursor : Int) = some (res ++ out, (endc : Int)) := by
  intro ops
  induction ops with
  | nil =>
    intro cursor res _
    refine ⟨[], cursor, by rw [specWalk], ?_⟩
    rw [applyHunkGo]
    simp
  | cons d rest ih =>
    obtain ⟨op, content⟩ := d
    cases op with
    | context =>
      intro cursor res hle
      rw [countReads] at hle
      have hcur : cursor < lines.length := by omega
      have hget : lines.get? cursor = some (lines.get ⟨cursor, hcur⟩) := List.get?_eq_get hcur
      obtain ⟨out, endc, hsw, hgo⟩ := ih (cursor + 1) (res ++ [lines.get ⟨cursor, hcur⟩])
        (by omega)
      refine ⟨lines.get ⟨cursor, hcur⟩ :: out, endc, ?_, ?_⟩
      · rw [specWalk, hget, hsw]
      · rw [applyHunkGo, if_pos (by exact_mod_cast hcur), pyGet_ofNat, hget]
        have hcast : ((cursor : Int) + 1) = ((cursor + 1 : Nat) : Int) := by push_cast; ring
        rw [hcast]
        show applyHunkGo lines rest (res ++ [lines.get ⟨cursor, hcur⟩])
            ((cursor + 1 : Nat) : Int) =
          some (res ++ lines.get ⟨cursor, hcur⟩ :: out, (endc : Int))
        rw [hgo]
        simp
    | delete =>
      intro cursor res hle
      rw [countReads] at hle
      obtain ⟨out, endc, hsw, hgo⟩ := ih (cursor + 1) res (by omega)
      refine ⟨out, endc, ?_, ?_⟩
      · rw [specWalk, hsw]
      · rw [applyHunkGo]
        have hcast : ((cursor : Int) + 1) = ((cursor + 1 : Nat) : Int) := by push_cast; ring
        rw [hcast, hgo]
    | add =>
      intro cursor res hle
      rw [countReads] at hle
      obtain ⟨out, endc, hsw, hgo⟩ := ih cursor (res ++ [ensureNL content]) (by omega)
      refine ⟨ensureNL content :: out, endc, ?_, ?_⟩
      · rw [specWalk, hsw]
      · rw [applyHunkGo, hgo]
        simp

/-- C3 counterexample: the parsed hunk `@@ -1 +1 @@ / (space)rec` has a single
context op; applying it to the EMPTY line sequence makes `_apply_hunk` emit
the hunk's recorded context text `"rec\n"` without advancing the cursor — the
claim's walk (copy the file's actual current line and advance) is not what the
code does there (there is no current line to copy). -/
theorem C3_counterexample :
    parseUnifiedDiff ("@@ -1 +1 @@\n rec\n".toList) =
        [⟨1, 1, 1, 1, [(HOp.context, "rec\n".toList)]⟩] ∧
      applyHunk [] ⟨1, 1, 1, 1, [(HOp.context, "rec\n".toList)]⟩ =
        some [("rec\n".toList)] ∧
      applyHunkSpec [] ⟨1, 1, 1, 1, [(HOp.context, "rec\n".toList)]⟩ = none := by
  decide

/-- C3 (amended): for every hunk with `old_start ≥ 1` whose context and delete
ops all read inside the line sequence
(`old_start - 1 + #(context/delete ops) ≤ #lines`), `_apply_hunk` behaves
exactly as the claim describes: it copies `lines[0 .. old_start-2]` verbatim,
walks the ops with a read cursor from `old_start - 1` — context copies the
file's actual current line and advances, delete advances without emitting,
add emits its (terminated) text without advancing — and finally copies the
remaining lines from the cursor on (the `specWalk`/`applyHunkSpec` rendering
of the claim). On out-of-range hunks the code instead falls back to emitting
the recorded context text, as the counterexample shows. -/
theorem C3_applyHunk_matches_spec (lines : List (List Char)) (h : Hunk)
    (hpos : 1 ≤ h.old_start)
    (hin : h.old_start - 1 + countReads h.lines ≤ lines.length) :
    ∃ out, applyHunkSpec lines h = some out ∧ applyHunk lines h = some out := by
  obtain ⟨out, endc, hsw, hgo⟩ := applyHunkGo_agrees_specWalk lines h.lines
    (h.old_start - 1) (lines.take (h.old_start - 1)) hin
  refine ⟨lines.take (h.old_start - 1) ++ out ++ lines.drop endc, ?_, ?_⟩
  · rw [applyHunkSpec, if_neg (by omega), hsw]
  · have hcast : ((h.old_start : Int) - 1) = ((h.old_start - 1 : Nat) : Int) := by omega
    rw [applyHunk, hcast, pySliceTo_ofNat, hgo]
    show some ((lines.take (h.old_start - 1) ++ out) ++ pySliceFrom lines ((endc : Nat) : Int)) =
      some (lines.take (h.old_start - 1) ++ out ++ lines.drop endc)
    rw [pySliceFrom_ofNat]

/-- Witness for C3 at a concrete input. -/
theorem C3_applyHunk_matches_spec_witness :
    ∃ out,
      applyHunkSpec [("a\n".toList), ("b\n".toList)]
          ⟨1, 2, 1, 2, [(HOp.context, "a\n".toList), (HOp.delete, "b\n".toList),
            (HOp.add, "B\n".toList)]⟩ = some out ∧
        applyHunk [("a\n".toList), ("b\n".toList)]
          ⟨1, 2, 1, 2, [(HOp.context, "a\n".toList), (HOp.delete, "b\n".toList),
            (HOp.add, "B\n".toList)]⟩ = some out :=
  C3_applyHunk_matches_spec [("a\n".toList), ("b\n".toList)]
    ⟨1, 2, 1, 2, [(HOp.context, "a\n".toList), (HOp.delete, "b\n".toList),
      (HOp.add, "B\n".toList)]⟩ (by decide) (by decide)

/-! ## Claim C1: hunk application order -/

theorem insertByOldStartDesc_append (h : Hunk) :
    ∀ l : List Hunk, (∀ x ∈ l, h.old_start < x.old_start) →
      insertByOldStartDesc h l = l ++ [h] := by
  intro l
  induction l with
  | nil => intro _; rw [insertByOldStartDesc]; rfl
  | cons h2 t ih =>
    intro hall
    rw [insertByOldStartDesc]
    have hlt : ¬ (h2.old_start ≤ h.old_start) := by
      have := hall h2 (by simp)
      omega
    rw [if_neg hlt, ih (fun x hx => hall x (by simp [hx]))]
    rfl

theorem sortByOldStartDesc_of_sorted :
    ∀ l : List Hunk, l.Pairwise (fun a b => a.old_start < b.old_start) →
      sortByOldStartDesc l = l.reverse := by
  intro l
  induction l with
  | nil => intro _; rfl
  | cons h t ih =>
    intro hp
    rw [List.pairwise_cons] at hp
    rw [sortByOldStartDesc, ih hp.2,
      insertByOldStartDesc_append h t.reverse (fun x hx => hp.1 x (List.mem_reverse.mp hx))]
    simp

/-- C1 counterexample: the diff lists its hunks in DECREASING `old_start`
order (3 then 1); `apply_diff` applies them in reverse parse order — the
`old_start = 1` hunk first — producing `"b\nc\n"`, whereas descending
`old_start` order (highest first, as the claim states) produces `"b\nd\n"`:
the two disagree, so `apply_diff` does not apply hunks in descending
`old_start` order when the headers are out of order. -/
theorem C1_counterexample :
    applyDiff ("a\nb\nc\nd\n".toList) ("@@ -3 +3 @@\n-c\n@@ -1 +1 @@\n-a\n".toList) =
        Except.ok ("b\nc\n".toList, 2) ∧
      applyDiffDescending ("a\nb\nc\nd\n".toList)
          ("@@ -3 +3 @@\n-c\n@@ -1 +1 @@\n-a\n".toList) =
        Except.ok ("b\nd\n".toList, 2) ∧
      ("b\nc\n".toList) ≠ ("b\nd\n".toList) := by
  decide

/-- C1 (amended): `apply_diff` applies hunks in reverse of PARSE order, not by
sorting on `old_start`. When the diff's headers appear in strictly increasing
`old_start` order (the normal case), this coincides with descending-`old_start`
application: the application sequence `reversed(hunks)` is then nonincreasing
in `old_start`, and the result agrees with sorting the hunks by descending
`old_start` first. For out-of-order headers the two orders differ (see the
counterexample). -/
theorem C1_reverse_parse_order (content diff : List Char)
    (hsorted : (parseUnifiedDiff diff).Pairwise (fun a b => a.old_start < b.old_start)) :
    applyDiff content diff = applyDiffDescending content diff ∧
      ((parseUnifiedDiff diff).reverse).Pairwise (fun a b => b.old_start ≤ a.old_start) := by
  constructor
  · rw [applyDiff, applyDiffDescending, sortByOldStartDesc_of_sorted _ hsorted]
  · rw [List.pairwise_reverse]
    exact hsorted.imp (fun hab => le_of_lt hab)

/-- Witness for C1 at a concrete input (headers in increasing order). -/
theorem C1_reverse_parse_order_witness :
    applyDiff ("a\nb\nc\nd\n".toList) ("@@ -1 +1 @@\n-a\n@@ -3 +3 @@\n-c\n".toList) =
        applyDiffDescending ("a\nb\nc\nd\n".toList)
          ("@@ -1 +1 @@\n-a\n@@ -3 +3 @@\n-c\n".toList) ∧
      ((parseUnifiedDiff ("@@ -1 +1 @@\n-a\n@@ -3 +3 @@\n-c\n".toList)).reverse).Pairwise
        (fun a b => b.old_start ≤ a.old_start) :=
  C1_reverse_parse_order ("a\nb\nc\nd\n".toList)
    ("@@ -1 +1 @@\n-a\n@@ -3 +3 @@\n-c\n".toList) (by decide)

/-! ## Claim C7: insert / delete round trip -/

theorem splitlines_ne_nil (s : List Char) (h : s ≠ []) : splitlines s ≠ [] := by
  intro hc
  apply h
  rw [← splitlines_flatten s, hc]
  rfl

theorem NLLines_splitlines (s : List Char) (he : s.getLast? = some '\n') :
    NLLines (splitlines s) := by
  apply NLLines_of_shape_endNL _ (splitlines_shape s)
  rw [splitlines_flatten]
  exact he

theorem NLLines_append (A B : List (List Char)) (hA : NLLines A) (hB : NLLines B) :
    NLLines (A ++ B) := by
  intro l hl
  rcases List.mem_append.mp hl with h | h
  · exact hA l h
  · exact hB l h

theorem normalizeText_ne_nil (text : List Char) (h : text ≠ []) :
    normalizeText text ≠ [] := by
  rw [normalizeText]
  by_cases hl : text.getLast? = some '\n'
  · rw [if_neg (by simp [hl])]
    exact h
  · rw [if_pos ⟨h, hl⟩]
    simp

theorem normalizeText_endNL (text : List Char) (h : text ≠ []) :
    (normalizeText text).getLast? = some '\n' := by
  rw [normalizeText]
  by_cases hl : text.getLast? = some '\n'
  · rw [if_neg (by simp [hl])]
    exact hl
  · rw [if_pos ⟨h, hl⟩]
    simp

theorem fixLastNL_id (L : List (List Char)) (h : NLLines L) : fixLastNL L = L := by
  cases hL : L.getLast? with
  | none => rw [fixLastNL, hL]
  | some last =>
    rw [fixLastNL, hL]
    show (if last.getLast? = some '\n' then L else L.dropLast ++ [last ++ ['\n']]) = L
    have hmem : last ∈ L := by
      obtain ⟨hne, heq⟩ := List.mem_getLast?_eq_getLast (Option.mem_def.mpr hL)
      rw [heq]
      exact List.getLast_mem hne
    rw [if_pos (h last hmem).2.2]

/-- Running `delete_lines` over a window of a content whose line decomposition
is known. -/
theorem deleteLines_clean (newLines : List (List Char)) (s e : Int)
    (hsplit : splitlines newLines.flatten = newLines)
    (hs : 1 ≤ s) (hse : s ≤ e) (hlen : e ≤ (newLines.length : Int)) :
    deleteLines newLines.flatten s e =
      Except.ok ((newLines.take (s.toNat - 1) ++ newLines.drop e.toNat).flatten,
        e - s + 1) := by
  rw [deleteLines, hsplit]
  rw [if_neg (by omega), if_neg (by omega)]
  have hmin : min e (newLines.length : Int) = e := by omega
  rw [hmin]

/-- C7 counterexample: content `"a"` has no trailing newline; inserting
`"X\n"` at line 2 first repairs the missing terminator (the last line `"a"`
becomes `"a\n"`) and appends, and deleting the inserted line 2 afterwards
yields `"a\n"`, not the original `"a"`. -/
theorem C7_counterexample :
    insertAtLine ("a".toList) 2 ("X\n".toList) = (("a\nX\n").toList, 1) ∧
      deleteLines (("a\nX\n").toList) 2 2 = Except.ok (("a\n").toList, 1) ∧
      ("a\n").toList ≠ ("a").toList := by
  decide

/-- C7 (amended): `insert_at_line` followed by `delete_lines` over exactly the
inserted range restores the original content, provided the inserted text is
nonempty and the insertion does not append past the end of a file whose last
line lacks a terminator — i.e. when the original content is empty, or ends
with a newline, or the insertion point is at most the file's line count. (In
the excluded case the code first appends a newline to the file's last line,
which the deletion cannot undo — see the counterexample; an empty inserted
text inserts zero lines, leaving no valid range to delete.) -/
theorem C7_insert_delete_roundTrip (content text : List Char) (lineNumber : Int)
    (ht : text ≠ [])
    (hc : content = [] ∨ content.getLast? = some '\n' ∨
      lineNumber ≤ ((splitlines content).length : Int)) :
    deleteLines (insertAtLine content lineNumber text).1
        (insertStartLine content lineNumber)
        (insertStartLine content lineNumber +
          ((insertAtLine content lineNumber text).2 : Int) - 1) =
      Except.ok (content, ((insertAtLine content lineNumber text).2 : Int)) := by
  have hBnn : splitlines (normalizeText text) ≠ [] :=
    splitlines_ne_nil _ (normalizeText_ne_nil text ht)
  have hBNL : NLLines (splitlines (normalizeText text)) :=
    NLLines_splitlines _ (normalizeText_endNL text ht)
  have hBshape : LinesShape (splitlines (normalizeText text)) := splitlines_shape _
  have hLshape : LinesShape (splitlines content) := splitlines_shape content
  have hk1 : 1 ≤ (splitlines (normalizeText text)).length := by
    cases hB : splitlines (normalizeText text) with
    | nil => exact absurd hB hBnn
    | cons a l => simp
  have h1 : (insertAtLine content lineNumber text).1 =
      (insertNewLines (splitlines content) (splitlines (normalizeText text))
        lineNumber).flatten := rfl
  have h2 : (insertAtLine content lineNumber text).2 =
      (splitlines (normalizeText text)).length := rfl
  have h3 : insertStartLine content lineNumber =
      (if lineNumber ≤ 0 then 1
        else if ((splitlines content).length : Int) < lineNumber then
          ((splitlines content).length : Int) + 1
        else lineNumber) := rfl
  rw [h1, h2, h3]
  by_cases hln : lineNumber ≤ 0
  · -- prepend branch
    simp only [insertNewLines, if_pos hln]
    have hsplit :
        splitlines ((splitlines (normalizeText text) ++ splitlines content).flatten)
          = splitlines (normalizeText text) ++ splitlines content :=
      splitlines_flatten_shape _ (LinesShape_append _ _ hBNL hLshape)
    have hlen : ((splitlines (normalizeText text) ++ splitlines content).length : Int)
        = ((splitlines (normalizeText text)).length : Int) +
          ((splitlines content).length : Int) := by
      push_cast [List.length_append]
      ring
    have he : (1 : Int) + ((splitlines (normalizeText text)).length : Int) - 1
        = ((splitlines (normalizeText text)).length : Int) := by omega
    rw [he]
    rw [deleteLines_clean _ _ _ hsplit (by omega) (by omega) (by rw [hlen]; omega)]
    have e1 : (splitlines (normalizeText text) ++ splitlines content).take
        ((1 : Int).toNat - 1) = [] := by
      simp
    have e2 : (splitlines (normalizeText text) ++ splitlines content).drop
        (((splitlines (normalizeText text)).length : Int)).toNat = splitlines content := by
      rw [Int.toNat_natCast]
      exact List.drop_left _ _
    rw [e1, e2, List.nil_append, splitlines_flatten]
    have e3 : ((splitlines (normalizeText text)).length : Int) - 1 + 1
        = ((splitlines (normalizeText text)).length : Int) := by omega
    rw [e3]
  · by_cases hgt : ((splitlines content).length : Int) < lineNumber
    · -- append branch (content empty or newline-terminated, by hc)
      have hLNL : NLLines (splitlines content) := by
        rcases hc with hc | hc | hc
        · rw [hc]
          intro l hl
          simp [splitlines, splitlinesAux] at hl
        · exact NLLines_splitlines content hc
        · omega
      have hfix : fixLastNL (splitlines content) = splitlines content :=
        fixLastNL_id _ hLNL
      simp only [insertNewLines, if_neg hln, if_pos hgt, hfix]
      have hsplit :
          splitlines ((splitlines content ++ splitlines (normalizeText text)).flatten)
            = splitlines content ++ splitlines (normalizeText text) :=
        splitlines_flatten_shape _ (LinesShape_append _ _ hLNL hBshape)
      have he : ((splitlines content).length : Int) + 1 +
          ((splitlines (normalizeText text)).length : Int) - 1
          = ((splitlines content).length : Int) +
            ((splitlines (normalizeText text)).length : Int) := by omega
      rw [he]
      have hlen : ((splitlines content ++ splitlines (normalizeText text)).length : Int)
          = ((splitlines content).length : Int) +
            ((splitlines (normalizeText text)).length : Int) := by
        push_cast [List.length_append]
        ring
      rw [deleteLines_clean _ _ _ hsplit (by omega) (by omega) (by rw [hlen])]
      have hms : (((splitlines content).length : Int) + 1).toNat - 1
          = (splitlines content).length := by omega
      have hme : (((splitlines content).length : Int) +
          ((splitlines (normalizeText text)).length : Int)).toNat
          = (splitlines content).length + (splitlines (normalizeText text)).length := by
        omega
      rw [hms, hme]
      have e1 : (splitlines content ++ splitlines (normalizeText text)).take
          ((splitlines content).length) = splitlines content := List.take_left _ _
      have e2 : (splitlines content ++ splitlines (normalizeText text)).drop
          ((splitlines content).length + (splitlines (normalizeText text)).length)
          = [] := by
        rw [← List.length_append]
        exact List.drop_length _
      rw [e1, e2, List.append_nil, splitlines_flatten]
      have e3 : ((splitlines content).length : Int) +
          ((splitlines (normalizeText text)).length : Int) -
          (((splitlines content).length : Int) + 1) + 1
          = ((splitlines (normalizeText text)).length : Int) := by omega
      rw [e3]
    · -- splice branch: 1 ≤ lineNumber ≤ number of lines
      obtain ⟨n, rfl⟩ : ∃ n : Nat, lineNumber = (n : Int) := ⟨lineNumber.toNat, by omega⟩
      have hn1 : 1 ≤ n := by omega
      have hnL : n ≤ (splitlines content).length := by omega
      simp only [insertNewLines, if_neg hln, if_neg hgt, Int.toNat_natCast]
      have hXlen : ((splitlines content).take (n - 1)).length = n - 1 := by
        rw [List.length_take]
        omega
      have hDnn : (splitlines content).drop (n - 1) ≠ [] := by
        intro hd
        have := List.drop_eq_nil_iff.mp hd
        omega
      have hXNL : NLLines ((splitlines content).take (n - 1)) := by
        apply NLLines_of_append_left _ ((splitlines content).drop (n - 1)) _ hDnn
        rw [List.take_append_drop]
        exact hLshape
      have hDshape : LinesShape ((splitlines content).drop (n - 1)) := by
        apply LinesShape_append_right ((splitlines content).take (n - 1))
        rw [List.take_append_drop]
        exact hLshape
      have hsplit :
          splitlines ((((splitlines content).take (n - 1) ++
              splitlines (normalizeText text)) ++
              (splitlines content).drop (n - 1)).flatten)
            = ((splitlines content).take (n - 1) ++ splitlines (normalizeText text)) ++
              (splitlines content).drop (n - 1) :=
        splitlines_flatten_shape _
          (LinesShape_append _ _ (NLLines_append _ _ hXNL hBNL) hDshape)
      have hlen : ((((splitlines content).take (n - 1) ++
            splitlines (normalizeText text)) ++
            (splitlines content).drop (n - 1)).length : Int)
          = ((splitlines content).length : Int) +
            ((splitlines (normalizeText text)).length : Int) := by
        simp only [List.length_append, List.length_take, List.length_drop]
        push_cast
        omega
      rw [deleteLines_clean _ _ _ hsplit (by omega) (by omega) (by rw [hlen]; omega)]
      have hms : ((n : Int)).toNat - 1 = n - 1 := by omega
      have hme : ((n : Int) + ((splitlines (normalizeText text)).length : Int) - 1).toNat
          = (n - 1) + (splitlines (normalizeText text)).length := by omega
      rw [hms, hme]
      have e1 : (((splitlines content).take (n - 1) ++
          splitlines (normalizeText text)) ++
          (splitlines content).drop (n - 1)).take (n - 1)
          = (splitlines content).take (n - 1) := by
        rw [List.append_assoc]
        exact List.take_left' hXlen
      have e2 : (((splitlines content).take (n - 1) ++
          splitlines (normalizeText text)) ++
          (splitlines content).drop (n - 1)).drop
            ((n - 1) + (splitlines (normalizeText text)).length)
          = (splitlines content).drop (n - 1) := by
        apply List.drop_left'
        rw [List.length_append, hXlen]
      rw [e1, e2, List.take_append_drop, splitlines_flatten]
      have e3 : (n : Int) + ((splitlines (normalizeText text)).length : Int) - 1 -
          (n : Int) + 1 = ((splitlines (normalizeText text)).length : Int) := by omega
      rw [e3]

/-- Witness for C7 at a concrete input. -/
theorem C7_insert_delete_roundTrip_witness :
    deleteLines (insertAtLine ("a\n".toList) 1 ("X".toList)).1
        (insertStartLine ("a\n".toList) 1)
        (insertStartLine ("a\n".toList) 1 +
          ((insertAtLine ("a\n".toList) 1 ("X".toList)).2 : Int) - 1) =
      Except.ok (("a\n".toList), ((insertAtLine ("a\n".toList) 1 ("X".toList)).2 : Int)) :=
  C7_insert_delete_roundTrip ("a\n".toList) ("X".toList) 1 (by decide) (by decide)
